import Mathlib

/-!
Shallow embedding of `DanielLMcGuire/iniHandler`.

The repository carries two generations of the same INI utility:

* an *ordered* implementation (`src/unnamed/part_000` header with the
  `iniEntry` / `iniSection` / `iniFile` structures, `src/unnamed/part_001`
  implementation, and the matching middle document of `src/iniHandler.h`),
  which keeps sections in a `std::vector<iniSection>`; and
* an *unordered-map* implementation (the first and last documents of
  `src/iniHandler.h`), which keys sections by name in a
  `std::unordered_map<std::string, std::vector<std::pair<...>>>`.

Both are embedded below.  C++ `std::string` is modelled as `List Char`;
file contents are a single `List Char` and `getLines` reproduces the
`while (std::getline(in, line))` loop.  The iteration order of
`std::unordered_map` is unspecified by C++, so serialization of the map
variant takes an explicit reordering function `σ`; theorems about it either
quantify over `σ` (constrained to be a permutation) or exhibit a concrete
conforming order.
-/

namespace Ini

/-- C++ `std::string`, modelled as a list of characters. -/
abbrev Str := List Char

/-- One key/value pair: `iniEntry` / `std::pair<std::string, std::string>`. -/
abbrev Entry := Str × Str

/-- `std::vector<std::pair<std::string, std::string>>`. -/
abbrev Entries := List Entry

/-- `IniHandler::iniSection`: a section name plus its ordered entries. -/
structure iniSection where
  name : Str
  entries : Entries
deriving DecidableEq

/-- The in-memory value of the unordered-map variant:
`std::unordered_map<std::string, std::vector<std::pair<...>>>`, modelled as an
association list in first-insertion order (iteration order is handled
separately by a reordering function `σ`). -/
abbrev IniMap := List (Str × Entries)

/-- Splits file bytes into lines exactly as the
`while (std::getline(in, line))` loops in both `readAll` implementations do:
`'\n'` terminates a line and is consumed; a final fragment with no trailing
newline still counts as a line; an empty file yields no lines. -/
def getLines : Str → List Str
  | [] => []
  | c :: cs =>
    if c = '\n' then [] :: getLines cs
    else
      match getLines cs with
      | [] => [[c]]
      | l :: ls => (c :: l) :: ls

/-- `auto pos = line.find('=')` followed by
`line.substr(0, pos)` / `line.substr(pos + 1)`: split a line at the first
`'='`, or `none` when the line has no `'='` (`pos == std::string::npos`). -/
def splitFirstEq : Str → Option (Str × Str)
  | [] => none
  | c :: cs =>
    if c = '=' then some ([], cs)
    else
      match splitFirstEq cs with
      | none => none
      | some (k, v) => some (c :: k, v)

/-- `line.front() == '[' && line.back() == ']'`
(both parsers evaluate this only on nonempty lines; on `[]` it is `false`). -/
def isHeader (l : Str) : Bool :=
  l.head? == some '[' && l.getLast? == some ']'

/-- `line.substr(1, line.size() - 2)`: the text between the brackets of a
header line. -/
def sectionName (l : Str) : Str :=
  (l.drop 1).dropLast

/-! ### The ordered (`iniSection`-vector) implementation, `src/unnamed/part_001` -/

/-- The `readAll` parsing loop of `part_001` (and of the middle document of
`iniHandler.h`).  The section list is accumulated in reverse, so the head of
the accumulator is the section the `currentSection` pointer designates; an
empty accumulator is the `currentSection == nullptr` state, in which a
key/value line is dropped. -/
def parseOrdLinesRev : List Str → List iniSection → List iniSection
  | [], acc => acc
  | l :: ls, acc =>
    if l = [] then parseOrdLinesRev ls acc
    else if isHeader l then parseOrdLinesRev ls (⟨sectionName l, []⟩ :: acc)
    else
      match splitFirstEq l with
      | none => parseOrdLinesRev ls acc
      | some (k, v) =>
        match acc with
        | [] => parseOrdLinesRev ls acc
        | s :: rest => parseOrdLinesRev ls (⟨s.name, s.entries ++ [(k, v)]⟩ :: rest)

/-- `part_001` `IniHandler::readAll`, as a pure function from the file's lines
to `file.sections`. -/
def parseOrd (ls : List Str) : List iniSection :=
  (parseOrdLinesRev ls []).reverse

/-- `readAll` of the ordered variant applied to raw file bytes. -/
def parseOrdC (f : Str) : List iniSection :=
  parseOrd (getLines f)

/-- The section-replacement step of `part_001` `IniHandler::writeSection`:
the first section with a matching name has its entries wholesale replaced,
otherwise the new section is appended at the end. -/
def replaceOrAppend : List iniSection → iniSection → List iniSection
  | [], sec => [sec]
  | s :: ss, sec =>
    if s.name = sec.name then ⟨s.name, sec.entries⟩ :: ss
    else s :: replaceOrAppend ss sec

/-- The entry-update loop shared by both variants' write-value paths:
the first entry with a matching key gets the new value, otherwise the new
pair is appended at the end. -/
def updateEntries : Entries → Str → Str → Entries
  | [], k, v => [(k, v)]
  | e :: es, k, v =>
    if e.1 = k then (k, v) :: es else e :: updateEntries es k v

/-- The section-update step of `part_001` `IniHandler::writeEntry` (and of the
ordered `writeValue` in the middle document of `iniHandler.h`): locate the
first section with the given name (appending a fresh empty one if absent) and
run the entry-update loop on its entries. -/
def updateSections : List iniSection → Str → Str → Str → List iniSection
  | [], n, k, v => [⟨n, [(k, v)]⟩]
  | s :: ss, n, k, v =>
    if s.name = n then ⟨s.name, updateEntries s.entries k v⟩ :: ss
    else s :: updateSections ss n k v

/-- The entry-scan loop of `part_001` `IniHandler::readEntry` /
the inner loop of both `readValue`s: value of the first entry with the given
key, or `""`. -/
def lookupVal : Entries → Str → Str
  | [], _ => []
  | (k, v) :: es, key => if k = key then v else lookupVal es key

/-- The section-scan of `part_001` `IniHandler::readEntry`: the first section
with a matching name is consulted and the loop `break`s, so a key in a later
same-named section is never seen. -/
def ordReadEntryS : List iniSection → Str → Str → Str
  | [], _, _ => []
  | s :: ss, n, key =>
    if s.name = n then lookupVal s.entries key else ordReadEntryS ss n key

/-- `part_001` `IniHandler::readSection`: `true` iff the first section with a
matching name has a nonempty entry list. -/
def ordReadSectionS : List iniSection → Str → Bool
  | [], _ => false
  | s :: ss, n => if s.name = n then !s.entries.isEmpty else ordReadSectionS ss n

/-! ### Serialization (identical in both variants) -/

/-- `out << entry.name << "=" << entry.value << "\n"` (without the newline). -/
def entryLine (e : Entry) : Str :=
  e.1 ++ '=' :: e.2

/-- `out << "[" << s.name << "]\n"` (without the newline). -/
def headerLine (n : Str) : Str :=
  '[' :: n ++ [']']

/-- The lines a single section is written as: header, entry lines, and the
blank separator line. -/
def sectionLines (n : Str) (es : Entries) : List Str :=
  headerLine n :: es.map entryLine ++ [[]]

/-- Joins lines into file bytes; every `operator<<` chain above ends in
`"\n"`, so each line is emitted followed by a newline. -/
def unlines (ls : List Str) : Str :=
  (ls.map (fun l => l ++ ['\n'])).flatten

/-- The serialization loop of the ordered variant, as lines. -/
def serializeOrdLines (ss : List iniSection) : List Str :=
  ss.flatMap (fun s => sectionLines s.name s.entries)

/-- The serialization loop of the ordered variant, as file bytes. -/
def serializeOrdC (ss : List iniSection) : Str :=
  unlines (serializeOrdLines ss)

/-- `part_001` `IniHandler::writeSection` as a transformation of file
contents (the success path: both opens succeed). -/
def ordWriteSectionC (f : Str) (sec : iniSection) : Str :=
  serializeOrdC (replaceOrAppend (parseOrdC f) sec)

/-- `part_001` `IniHandler::writeEntry` as a transformation of file contents
(the success path). -/
def ordWriteEntryC (f : Str) (n k v : Str) : Str :=
  serializeOrdC (updateSections (parseOrdC f) n k v)

/-- `part_001` `IniHandler::readEntry` on file bytes. -/
def ordReadEntryC (f : Str) (n k : Str) : Str :=
  ordReadEntryS (parseOrdC f) n k

/-- `part_001` `IniHandler::writeSection` with the two file-open outcomes
explicit: a failed `readAll` (`r = false`) aborts before anything is written,
and a failed `std::ofstream` open (`w = false`) aborts with the file intact. -/
def ordWriteSection (r w : Bool) (f : Str) (sec : iniSection) : Bool × Str :=
  if !r then (false, f)
  else if !w then (false, f)
  else (true, ordWriteSectionC f sec)

/-! ### The unordered-map implementation, last document of `src/iniHandler.h` -/

/-- `outData[currentSection].emplace_back(key, value)`: `operator[]`
default-constructs the vector for an absent key (the new key's first-insertion
position is the end of the association list) and appends the pair. -/
def mapAppend : IniMap → Str → Entry → IniMap
  | [], n, e => [(n, [e])]
  | (n', es) :: m, n, e =>
    if n' = n then (n', es ++ [e]) :: m else (n', es) :: mapAppend m n e

/-- The `readAll` parsing loop of the map variant: `currentSection` starts as
the empty string, a header line replaces it, and a key/value line is appended
under the current name — there is no `nullptr` guard, so a pre-header
key/value line lands in the section named `""`. -/
def parseMapLines : List Str → Str → IniMap → IniMap
  | [], _, m => m
  | l :: ls, cur, m =>
    if l = [] then parseMapLines ls cur m
    else if isHeader l then parseMapLines ls (sectionName l) m
    else
      match splitFirstEq l with
      | none => parseMapLines ls cur m
      | some (k, v) => parseMapLines ls cur (mapAppend m cur (k, v))

/-- Map-variant `IniHandler::readAll` as a pure function of the file's lines. -/
def parseMap (ls : List Str) : IniMap :=
  parseMapLines ls [] []

/-- Map-variant `readAll` on raw file bytes. -/
def parseMapC (f : Str) : IniMap :=
  parseMap (getLines f)

/-- `allData.count(section)` / `allData[section]` on the parsed map. -/
def mapLookup : IniMap → Str → Option Entries
  | [], _ => none
  | (n', es) :: m, n => if n' = n then some es else mapLookup m n

/-- `allData[section] = entries`: replace the entries of an existing key or
insert the key (first-insertion position at the end). -/
def mapAssign : IniMap → Str → Entries → IniMap
  | [], n, es => [(n, es)]
  | (n', es') :: m, n, es =>
    if n' = n then (n', es) :: m else (n', es') :: mapAssign m n es

/-- The serialization loop `for (const auto& s : allData)`, as lines, run on
the map *after* it has been put in the unordered map's iteration order. -/
def serializeMapLines (m : IniMap) : List Str :=
  m.flatMap (fun p => sectionLines p.1 p.2)

/-- Map-variant serialization to file bytes. -/
def serializeMapC (m : IniMap) : Str :=
  unlines (serializeMapLines m)

/-- Map-variant `IniHandler::writeSection` with explicit file-open outcomes.
The return value of the preliminary `readAll(allData)` is ignored: when the
read fails (`r = false`) the map is simply left empty and the function carries
on.  Only a failed `std::ofstream` open (`w = false`) produces `false`, and in
that case the file is untouched.  `σ` is the unordered map's iteration
order. -/
def mapWriteSection (σ : IniMap → IniMap) (r w : Bool) (f : Str) (n : Str)
    (es : Entries) : Bool × Str :=
  let m := if r then parseMapC f else []
  if w then (true, serializeMapC (σ (mapAssign m n es))) else (false, f)

/-- Map-variant `writeSection` as a content transformation (success path). -/
def mapWriteSectionC (σ : IniMap → IniMap) (f : Str) (n : Str)
    (es : Entries) : Str :=
  (mapWriteSection σ true true f n es).2

/-- Map-variant `IniHandler::readSection` with its out-parameter:
a failed `readAll` returns `false` before `outEntries.clear()` runs, so the
caller's vector is untouched; a readable file with no such key clears the
vector and returns `false`; otherwise the entries are copied out. -/
def mapReadSection (r : Bool) (f : Str) (n : Str) (out : Entries) :
    Bool × Entries :=
  if !r then (false, out)
  else
    match mapLookup (parseMapC f) n with
    | some es => (true, es)
    | none => (false, [])

/-- Map-variant `IniHandler::readValue`: `""` when `allData.count(section)`
is zero, otherwise the first matching key in `allData[section]` (or `""`). -/
def mapReadValueC (f : Str) (n k : Str) : Str :=
  match mapLookup (parseMapC f) n with
  | none => []
  | some es => lookupVal es k

/-- Map-variant `IniHandler::writeValue` as a content transformation:
`readSection` fetches the section's current entries (an absent section or a
failed read both leave the local vector empty — the boolean result is
ignored), the entry-update loop runs, and `writeSection` persists. -/
def mapWriteValueC (σ : IniMap → IniMap) (f : Str) (n k v : Str) : Str :=
  let es :=
    match mapLookup (parseMapC f) n with
    | none => []
    | some es => es
  mapWriteSectionC σ f n (updateEntries es k v)

/-! ### Cleanliness: the shape invariants of strings that came out of the parser -/

/-- An entry that the line format represents faithfully: no embedded newline,
no `'='` in the key, and its serialized line is not mistaken for a section
header.  Every entry produced by either parser satisfies this. -/
def cleanEntry (e : Entry) : Prop :=
  '\n' ∉ e.1 ∧ '\n' ∉ e.2 ∧ '=' ∉ e.1 ∧ isHeader (entryLine e) = false

instance (e : Entry) : Decidable (cleanEntry e) := by
  unfold cleanEntry; infer_instance

/-- A section whose name and entries the format represents faithfully. -/
def cleanSection (s : iniSection) : Prop :=
  '\n' ∉ s.name ∧ ∀ e ∈ s.entries, cleanEntry e

instance (s : iniSection) : Decidable (cleanSection s) := by
  unfold cleanSection; infer_instance

/-- Map states whose serialization parses back faithfully: unique section
names (an `unordered_map` invariant), no embedded newlines, clean entries. -/
def mapClean (m : IniMap) : Prop :=
  (m.map Prod.fst).Nodup ∧ ∀ p ∈ m, '\n' ∉ p.1 ∧ ∀ e ∈ p.2, cleanEntry e

/-! ### Lemmas about `getLines` -/

theorem getLines_nl_free : ∀ cs : Str, ∀ l ∈ getLines cs, '\n' ∉ l := by
  intro cs
  induction cs with
  | nil => simp [getLines]
  | cons c cs ih =>
    intro l hl
    by_cases hc : c = '\n'
    · subst hc
      simp only [getLines, if_true, reduceIte, List.mem_cons] at hl
      cases hl with
      | inl h => subst h; simp
      | inr h => exact ih l h
    · simp only [getLines, if_neg hc] at hl
      cases hgl : getLines cs with
      | nil =>
        rw [hgl] at hl
        simp only [List.mem_singleton] at hl
        subst hl
        intro hmem
        rcases List.mem_singleton.1 hmem with h1
        exact hc h1.symm
      | cons l' ls' =>
        rw [hgl] at hl
        simp only [List.mem_cons] at hl
        rcases hl with rfl | hl
        · have hl' : '\n' ∉ l' := ih l' (by rw [hgl]; exact List.mem_cons_self _ _)
          intro hmem
          rcases List.mem_cons.1 hmem with h1 | h1
          · exact hc h1.symm
          · exact hl' h1
        · exact ih l (by rw [hgl]; exact List.mem_cons_of_mem _ hl)

theorem getLines_append_nl (l r : Str) (h : '\n' ∉ l) :
    getLines (l ++ '\n' :: r) = l :: getLines r := by
  induction l with
  | nil => simp [getLines]
  | cons c l ih =>
    have hc : c ≠ '\n' := fun hc => h (hc ▸ List.mem_cons_self _ _)
    have hl : '\n' ∉ l := fun hl => h (List.mem_cons_of_mem _ hl)
    have harw : l.append ('\n' :: r) = l ++ '\n' :: r := rfl
    simp only [List.cons_append, getLines, if_neg hc, harw, ih hl]

theorem getLines_unlines (ls : List Str) (h : ∀ l ∈ ls, '\n' ∉ l) :
    getLines (unlines ls) = ls := by
  induction ls with
  | nil => simp [unlines, getLines]
  | cons l ls ih =>
    have h1 : '\n' ∉ l := h l (List.mem_cons_self _ _)
    have h2 : ∀ l' ∈ ls, '\n' ∉ l' := fun l' hl' => h l' (List.mem_cons_of_mem _ hl')
    have : unlines (l :: ls) = l ++ '\n' :: unlines ls := by
      simp [unlines]
    rw [this, getLines_append_nl l _ h1, ih h2]

/-! ### Lemmas about `splitFirstEq` -/

theorem splitFirstEq_append (k v : Str) (h : '=' ∉ k) :
    splitFirstEq (k ++ '=' :: v) = some (k, v) := by
  induction k with
  | nil => simp [splitFirstEq]
  | cons c k ih =>
    have hc : c ≠ '=' := fun hc => h (hc ▸ List.mem_cons_self _ _)
    have hk : '=' ∉ k := fun hk => h (List.mem_cons_of_mem _ hk)
    have harw : k.append ('=' :: v) = k ++ '=' :: v := rfl
    simp only [List.cons_append, splitFirstEq, if_neg hc, harw, ih hk]

theorem splitFirstEq_eq_some : ∀ {l k v : Str}, splitFirstEq l = some (k, v) →
    l = k ++ '=' :: v ∧ '=' ∉ k := by
  intro l
  induction l with
  | nil => intro k v h; simp [splitFirstEq] at h
  | cons c cs ih =>
    intro k v h
    by_cases hc : c = '='
    · subst hc
      simp only [splitFirstEq, if_pos rfl, Option.some.injEq, Prod.mk.injEq] at h
      obtain ⟨rfl, rfl⟩ := h
      simp
    · simp only [splitFirstEq, if_neg hc] at h
      rcases hsp : splitFirstEq cs with - | ⟨k', v'⟩
      · rw [hsp] at h; simp at h
      · rw [hsp] at h
        simp only [Option.some.injEq, Prod.mk.injEq] at h
        obtain ⟨rfl, rfl⟩ := h
        obtain ⟨rfl, hk'⟩ := ih hsp
        constructor
        · simp
        · intro hmem
          rcases List.mem_cons.1 hmem with h1 | h1
          · exact hc h1.symm
          · exact hk' h1

/-! ### Lemmas about header and entry lines -/

theorem headerLine_ne_nil (n : Str) : headerLine n ≠ [] := by
  simp [headerLine]

theorem isHeader_headerLine (n : Str) : isHeader (headerLine n) = true := by
  have h1 : (headerLine n).head? = some '[' := rfl
  have h2 : (headerLine n).getLast? = some ']' := by
    show (('[' :: n) ++ [']']).getLast? = some ']'
    exact List.getLast?_concat _
  simp [isHeader, h1, h2]

theorem sectionName_headerLine (n : Str) : sectionName (headerLine n) = n := by
  show (('[' :: n ++ [']']).drop 1).dropLast = n
  have h1 : ('[' :: n ++ [']']).drop 1 = n ++ [']'] := rfl
  rw [h1, List.dropLast_concat]

theorem entryLine_ne_nil (e : Entry) : entryLine e ≠ [] := by
  rcases e with ⟨k, v⟩
  cases k <;> simp [entryLine]

theorem splitFirstEq_entryLine (e : Entry) (h : '=' ∉ e.1) :
    splitFirstEq (entryLine e) = some (e.1, e.2) := by
  rcases e with ⟨k, v⟩
  exact splitFirstEq_append k v h

/-! ### Parsed strings are clean -/

theorem sectionName_nl_free (l : Str) (h : '\n' ∉ l) : '\n' ∉ sectionName l :=
  fun hm => h (List.drop_subset _ _ (List.dropLast_subset _ hm))

theorem cleanEntry_of_line (l k v : Str) (hnl : '\n' ∉ l)
    (hh : isHeader l = false) (hsp : splitFirstEq l = some (k, v)) :
    cleanEntry (k, v) := by
  obtain ⟨hl, hk⟩ := splitFirstEq_eq_some hsp
  subst hl
  refine ⟨fun h => hnl (List.mem_append.2 (Or.inl h)),
    fun h => hnl (List.mem_append.2 (Or.inr (List.mem_cons_of_mem _ h))), hk, hh⟩

theorem parseOrdLinesRev_clean (ls : List Str) :
    ∀ acc : List iniSection, (∀ l ∈ ls, '\n' ∉ l) → (∀ s ∈ acc, cleanSection s) →
      ∀ s ∈ parseOrdLinesRev ls acc, cleanSection s := by
  induction ls with
  | nil =>
    intro acc _ hacc s hs
    exact hacc s hs
  | cons l ls ih =>
    intro acc hls hacc
    have hl : '\n' ∉ l := hls l (List.mem_cons_self _ _)
    have hls' : ∀ l' ∈ ls, '\n' ∉ l' := fun l' h => hls l' (List.mem_cons_of_mem _ h)
    by_cases he : l = []
    · rw [show parseOrdLinesRev (l :: ls) acc = parseOrdLinesRev ls acc by
        simp [parseOrdLinesRev, he]]
      exact ih acc hls' hacc
    · by_cases hh : isHeader l = true
      · rw [show parseOrdLinesRev (l :: ls) acc
            = parseOrdLinesRev ls (⟨sectionName l, []⟩ :: acc) by
          simp [parseOrdLinesRev, he, hh]]
        refine ih _ hls' ?_
        intro s hs
        rcases List.mem_cons.1 hs with rfl | hs
        · exact ⟨sectionName_nl_free l hl, by simp⟩
        · exact hacc s hs
      · rw [Bool.not_eq_true] at hh
        cases hsp : splitFirstEq l with
        | none =>
          rw [show parseOrdLinesRev (l :: ls) acc = parseOrdLinesRev ls acc by
            simp [parseOrdLinesRev, he, hh, hsp]]
          exact ih acc hls' hacc
        | some kv =>
          rcases kv with ⟨k, v⟩
          cases acc with
          | nil =>
            rw [show parseOrdLinesRev (l :: ls) [] = parseOrdLinesRev ls [] by
              simp [parseOrdLinesRev, he, hh, hsp]]
            exact ih [] hls' (by simp)
          | cons s0 rest =>
            rw [show parseOrdLinesRev (l :: ls) (s0 :: rest)
                = parseOrdLinesRev ls (⟨s0.name, s0.entries ++ [(k, v)]⟩ :: rest) by
              simp [parseOrdLinesRev, he, hh, hsp]]
            refine ih _ hls' ?_
            intro s hs
            rcases List.mem_cons.1 hs with rfl | hs
            · have hs0 : cleanSection s0 := hacc s0 (List.mem_cons_self _ _)
              refine ⟨hs0.1, ?_⟩
              intro e he'
              rcases List.mem_append.1 he' with h1 | h1
              · exact hs0.2 e h1
              · rcases List.mem_singleton.1 h1 with rfl
                exact cleanEntry_of_line l k v hl hh hsp
            · exact hacc s (List.mem_cons_of_mem _ hs)

theorem parseOrdC_clean (f : Str) : ∀ s ∈ parseOrdC f, cleanSection s := by
  intro s hs
  rw [parseOrdC, parseOrd, List.mem_reverse] at hs
  exact parseOrdLinesRev_clean (getLines f) [] (getLines_nl_free f) (by simp) s hs

/-! ### Serialized lines are newline-free -/

theorem headerLine_nl_free (n : Str) (h : '\n' ∉ n) : '\n' ∉ headerLine n := by
  intro hm
  rcases List.mem_cons.1 hm with h1 | h1
  · exact absurd h1.symm (by decide)
  · rcases List.mem_append.1 h1 with h2 | h2
    · exact h h2
    · exact absurd (List.mem_singleton.1 h2).symm (by decide)

theorem entryLine_nl_free (e : Entry) (h : cleanEntry e) : '\n' ∉ entryLine e := by
  intro hm
  rcases List.mem_append.1 hm with h1 | h1
  · exact h.1 h1
  · rcases List.mem_cons.1 h1 with h2 | h2
    · exact absurd h2.symm (by decide)
    · exact h.2.1 h2

theorem sectionLines_nl_free (n : Str) (es : Entries) (hn : '\n' ∉ n)
    (hes : ∀ e ∈ es, cleanEntry e) : ∀ l ∈ sectionLines n es, '\n' ∉ l := by
  intro l hl
  rcases List.mem_cons.1 hl with rfl | hl
  · exact headerLine_nl_free n hn
  · rcases List.mem_append.1 hl with h1 | h1
    · obtain ⟨e, he, rfl⟩ := List.mem_map.1 h1
      exact entryLine_nl_free e (hes e he)
    · rcases List.mem_singleton.1 h1 with rfl
      simp

theorem serializeOrdLines_nl_free (ss : List iniSection)
    (h : ∀ s ∈ ss, cleanSection s) : ∀ l ∈ serializeOrdLines ss, '\n' ∉ l := by
  intro l hl
  rw [serializeOrdLines, List.mem_flatMap] at hl
  obtain ⟨s, hs, hl⟩ := hl
  exact sectionLines_nl_free s.name s.entries (h s hs).1 (h s hs).2 l hl

/-! ### Ordered-variant round trip -/

theorem parseOrdLinesRev_entries (es : Entries) :
    ∀ (n : Str) (done : Entries) (rest : List Str) (acc : List iniSection),
      (∀ e ∈ es, cleanEntry e) →
      parseOrdLinesRev (es.map entryLine ++ rest) (⟨n, done⟩ :: acc)
        = parseOrdLinesRev rest (⟨n, done ++ es⟩ :: acc) := by
  induction es with
  | nil => intro n done rest acc _; simp
  | cons e es ih =>
    intro n done rest acc hcl
    have hce : cleanEntry e := hcl e (List.mem_cons_self _ _)
    have h1 : entryLine e ≠ [] := entryLine_ne_nil e
    have h2 : isHeader (entryLine e) = false := hce.2.2.2
    have h3 : splitFirstEq (entryLine e) = some (e.1, e.2) :=
      splitFirstEq_entryLine e hce.2.2.1
    rw [List.map_cons, List.cons_append,
      show parseOrdLinesRev (entryLine e :: (es.map entryLine ++ rest)) (⟨n, done⟩ :: acc)
          = parseOrdLinesRev (es.map entryLine ++ rest) (⟨n, done ++ [(e.1, e.2)]⟩ :: acc) by
        simp [parseOrdLinesRev, h1, h2, h3],
      ih n (done ++ [(e.1, e.2)]) rest acc (fun e' h => hcl e' (List.mem_cons_of_mem _ h))]
    simp

theorem parseOrdLinesRev_section (n : Str) (es : Entries) (rest : List Str)
    (acc : List iniSection) (hes : ∀ e ∈ es, cleanEntry e) :
    parseOrdLinesRev (sectionLines n es ++ rest) acc
      = parseOrdLinesRev rest (⟨n, es⟩ :: acc) := by
  have harr : sectionLines n es ++ rest
      = headerLine n :: (es.map entryLine ++ ([[]] ++ rest)) := by
    simp [sectionLines]
  have hstep : parseOrdLinesRev (headerLine n :: (es.map entryLine ++ ([[]] ++ rest))) acc
      = parseOrdLinesRev (es.map entryLine ++ ([[]] ++ rest)) (⟨n, []⟩ :: acc) := by
    simp [parseOrdLinesRev, headerLine_ne_nil, isHeader_headerLine, sectionName_headerLine]
  rw [harr, hstep, parseOrdLinesRev_entries es n [] ([[]] ++ rest) acc hes]
  simp [parseOrdLinesRev]

theorem parseOrdLinesRev_serialize (ss : List iniSection) :
    ∀ acc, (∀ s ∈ ss, cleanSection s) →
      parseOrdLinesRev (serializeOrdLines ss) acc = ss.reverse ++ acc := by
  induction ss with
  | nil => intro acc _; simp [serializeOrdLines, parseOrdLinesRev]
  | cons s ss ih =>
    intro acc h
    rw [serializeOrdLines, List.flatMap_cons,
      show (sectionLines s.name s.entries) ++ ss.flatMap (fun t => sectionLines t.name t.entries)
        = sectionLines s.name s.entries ++ serializeOrdLines ss from rfl,
      parseOrdLinesRev_section s.name s.entries _ acc (h s (List.mem_cons_self _ _)).2,
      ih (⟨s.name, s.entries⟩ :: acc) (fun t ht => h t (List.mem_cons_of_mem _ ht))]
    simp

theorem parseOrd_serialize (ss : List iniSection) (h : ∀ s ∈ ss, cleanSection s) :
    parseOrdC (serializeOrdC ss) = ss := by
  rw [parseOrdC, serializeOrdC, getLines_unlines _ (serializeOrdLines_nl_free ss h),
    parseOrd, parseOrdLinesRev_serialize ss [] h]
  simp

/-! ### Map-variant lemmas: `mapAppend` and parser invariants -/

theorem mapAppend_not_mem (m : IniMap) (n : Str) (e : Entry)
    (h : n ∉ m.map Prod.fst) : mapAppend m n e = m ++ [(n, [e])] := by
  induction m with
  | nil => simp [mapAppend]
  | cons p m ih =>
    rcases p with ⟨n', es⟩
    simp only [List.map_cons, List.mem_cons] at h
    push_neg at h
    have hne : n' ≠ n := fun hx => h.1 hx.symm
    simp [mapAppend, hne, ih h.2]

theorem mapAppend_last (m : IniMap) (n : Str) (done : Entries) (e : Entry)
    (h : n ∉ m.map Prod.fst) :
    mapAppend (m ++ [(n, done)]) n e = m ++ [(n, done ++ [e])] := by
  induction m with
  | nil => simp [mapAppend]
  | cons p m ih =>
    rcases p with ⟨n', es⟩
    simp only [List.map_cons, List.mem_cons] at h
    push_neg at h
    have hne : n' ≠ n := fun hx => h.1 hx.symm
    simp [mapAppend, hne, ih h.2]

theorem mapAppend_mem_names (m : IniMap) (n : Str) (e : Entry) (x : Str) :
    x ∈ (mapAppend m n e).map Prod.fst ↔ x ∈ m.map Prod.fst ∨ x = n := by
  induction m with
  | nil => simp [mapAppend]
  | cons p m ih =>
    rcases p with ⟨n', es⟩
    by_cases hne : n' = n
    · subst hne
      rw [show mapAppend ((n', es) :: m) n' e = (n', es ++ [e]) :: m by
        simp [mapAppend]]
      simp only [List.map_cons, List.mem_cons]
      tauto
    · rw [show mapAppend ((n', es) :: m) n e = (n', es) :: mapAppend m n e by
        simp [mapAppend, hne]]
      simp only [List.map_cons, List.mem_cons, ih]
      tauto

theorem mapAppend_nodup (m : IniMap) (n : Str) (e : Entry)
    (h : (m.map Prod.fst).Nodup) : ((mapAppend m n e).map Prod.fst).Nodup := by
  induction m with
  | nil => simp [mapAppend]
  | cons p m ih =>
    rcases p with ⟨n', es⟩
    simp only [List.map_cons, List.nodup_cons] at h
    by_cases hne : n' = n
    · subst hne
      rw [show mapAppend ((n', es) :: m) n' e = (n', es ++ [e]) :: m by
        simp [mapAppend]]
      simp only [List.map_cons, List.nodup_cons]
      exact ⟨h.1, h.2⟩
    · rw [show mapAppend ((n', es) :: m) n e = (n', es) :: mapAppend m n e by
        simp [mapAppend, hne]]
      simp only [List.map_cons, List.nodup_cons]
      refine ⟨?_, ih h.2⟩
      rw [mapAppend_mem_names]
      rintro (hx | rfl)
      · exact h.1 hx
      · exact hne rfl

theorem mapAppend_clean (m : IniMap) (n : Str) (e : Entry)
    (hm : ∀ p ∈ m, '\n' ∉ p.1 ∧ ∀ e' ∈ p.2, cleanEntry e')
    (hn : '\n' ∉ n) (he : cleanEntry e) :
    ∀ p ∈ mapAppend m n e, '\n' ∉ p.1 ∧ ∀ e' ∈ p.2, cleanEntry e' := by
  induction m with
  | nil =>
    intro p hp
    simp only [mapAppend, List.mem_singleton] at hp
    subst hp
    exact ⟨hn, by intro e' he'; rcases List.mem_singleton.1 he' with rfl; exact he⟩
  | cons q m ih =>
    rcases q with ⟨n', es⟩
    intro p hp
    have hq := hm ⟨n', es⟩ (List.mem_cons_self _ _)
    have hm' : ∀ p ∈ m, '\n' ∉ p.1 ∧ ∀ e' ∈ p.2, cleanEntry e' :=
      fun p hp => hm p (List.mem_cons_of_mem _ hp)
    by_cases hne : n' = n
    · rw [show mapAppend (⟨n', es⟩ :: m) n e = (n', es ++ [e]) :: m by
        simp [mapAppend, hne]] at hp
      rcases List.mem_cons.1 hp with rfl | hp
      · refine ⟨hq.1, ?_⟩
        intro e' he'
        rcases List.mem_append.1 he' with h1 | h1
        · exact hq.2 e' h1
        · rcases List.mem_singleton.1 h1 with rfl; exact he
      · exact hm' p hp
    · rw [show mapAppend (⟨n', es⟩ :: m) n e = (n', es) :: mapAppend m n e by
        simp [mapAppend, hne]] at hp
      rcases List.mem_cons.1 hp with rfl | hp
      · exact hq
      · exact ih hm' p hp

theorem parseMapLines_clean (ls : List Str) :
    ∀ (cur : Str) (m : IniMap), (∀ l ∈ ls, '\n' ∉ l) → '\n' ∉ cur →
      (m.map Prod.fst).Nodup → (∀ p ∈ m, '\n' ∉ p.1 ∧ ∀ e ∈ p.2, cleanEntry e) →
      ((parseMapLines ls cur m).map Prod.fst).Nodup ∧
        ∀ p ∈ parseMapLines ls cur m, '\n' ∉ p.1 ∧ ∀ e ∈ p.2, cleanEntry e := by
  induction ls with
  | nil =>
    intro cur m _ _ h1 h2
    exact ⟨h1, h2⟩
  | cons l ls ih =>
    intro cur m hls hcur h1 h2
    have hl : '\n' ∉ l := hls l (List.mem_cons_self _ _)
    have hls' : ∀ l' ∈ ls, '\n' ∉ l' := fun l' h => hls l' (List.mem_cons_of_mem _ h)
    by_cases he : l = []
    · rw [show parseMapLines (l :: ls) cur m = parseMapLines ls cur m by
        simp [parseMapLines, he]]
      exact ih cur m hls' hcur h1 h2
    · by_cases hh : isHeader l = true
      · rw [show parseMapLines (l :: ls) cur m = parseMapLines ls (sectionName l) m by
          simp [parseMapLines, he, hh]]
        exact ih _ m hls' (sectionName_nl_free l hl) h1 h2
      · rw [Bool.not_eq_true] at hh
        cases hsp : splitFirstEq l with
        | none =>
          rw [show parseMapLines (l :: ls) cur m = parseMapLines ls cur m by
            simp [parseMapLines, he, hh, hsp]]
          exact ih cur m hls' hcur h1 h2
        | some kv =>
          rcases kv with ⟨k, v⟩
          rw [show parseMapLines (l :: ls) cur m
              = parseMapLines ls cur (mapAppend m cur (k, v)) by
            simp [parseMapLines, he, hh, hsp]]
          exact ih cur _ hls' hcur (mapAppend_nodup m cur (k, v) h1)
            (mapAppend_clean m cur (k, v) h2 hcur (cleanEntry_of_line l k v hl hh hsp))

theorem parseMapC_clean (f : Str) : mapClean (parseMapC f) := by
  have h := parseMapLines_clean (getLines f) [] [] (getLines_nl_free f) (by simp)
    (by simp) (by simp)
  exact ⟨h.1, h.2⟩

theorem serializeMapLines_nl_free (m : IniMap)
    (h : ∀ p ∈ m, '\n' ∉ p.1 ∧ ∀ e ∈ p.2, cleanEntry e) :
    ∀ l ∈ serializeMapLines m, '\n' ∉ l := by
  intro l hl
  rw [serializeMapLines, List.mem_flatMap] at hl
  obtain ⟨p, hp, hl⟩ := hl
  exact sectionLines_nl_free p.1 p.2 (h p hp).1 (h p hp).2 l hl

/-! ### Map-variant round trip -/

theorem parseMapLines_entries (es : Entries) :
    ∀ (n : Str) (done : Entries) (rest : List Str) (acc : IniMap),
      n ∉ acc.map Prod.fst → (∀ e ∈ es, cleanEntry e) →
      parseMapLines (es.map entryLine ++ rest) n (acc ++ [(n, done)])
        = parseMapLines rest n (acc ++ [(n, done ++ es)]) := by
  induction es with
  | nil => intro n done rest acc _ _; simp
  | cons e es ih =>
    intro n done rest acc hn hcl
    have hce : cleanEntry e := hcl e (List.mem_cons_self _ _)
    have h1 : entryLine e ≠ [] := entryLine_ne_nil e
    have h2 : isHeader (entryLine e) = false := hce.2.2.2
    have h3 : splitFirstEq (entryLine e) = some (e.1, e.2) :=
      splitFirstEq_entryLine e hce.2.2.1
    rw [List.map_cons, List.cons_append,
      show parseMapLines (entryLine e :: (es.map entryLine ++ rest)) n (acc ++ [(n, done)])
          = parseMapLines (es.map entryLine ++ rest) n
              (mapAppend (acc ++ [(n, done)]) n (e.1, e.2)) by
        simp [parseMapLines, h1, h2, h3],
      mapAppend_last acc n done (e.1, e.2) hn,
      ih n (done ++ [(e.1, e.2)]) rest acc hn
        (fun e' h => hcl e' (List.mem_cons_of_mem _ h))]
    simp

theorem parseMapLines_section (n : Str) (es : Entries) (rest : List Str) (acc : IniMap)
    (cur : Str) (hn : n ∉ acc.map Prod.fst) (hes : ∀ e ∈ es, cleanEntry e) :
    parseMapLines (sectionLines n es ++ rest) cur acc
      = parseMapLines rest n (if es.isEmpty then acc else acc ++ [(n, es)]) := by
  have harr : sectionLines n es ++ rest
      = headerLine n :: (es.map entryLine ++ ([[]] ++ rest)) := by
    simp [sectionLines]
  have hstep : parseMapLines (headerLine n :: (es.map entryLine ++ ([[]] ++ rest))) cur acc
      = parseMapLines (es.map entryLine ++ ([[]] ++ rest)) n acc := by
    simp [parseMapLines, headerLine_ne_nil, isHeader_headerLine, sectionName_headerLine]
  rw [harr, hstep]
  cases es with
  | nil => simp [parseMapLines]
  | cons e es' =>
    have hce : cleanEntry e := hes e (List.mem_cons_self _ _)
    have h1 : entryLine e ≠ [] := entryLine_ne_nil e
    have h2 : isHeader (entryLine e) = false := hce.2.2.2
    have h3 : splitFirstEq (entryLine e) = some (e.1, e.2) :=
      splitFirstEq_entryLine e hce.2.2.1
    rw [List.map_cons, List.cons_append,
      show parseMapLines (entryLine e :: (es'.map entryLine ++ ([[]] ++ rest))) n acc
          = parseMapLines (es'.map entryLine ++ ([[]] ++ rest)) n (mapAppend acc n (e.1, e.2)) by
        simp [parseMapLines, h1, h2, h3],
      mapAppend_not_mem acc n (e.1, e.2) hn,
      parseMapLines_entries es' n [(e.1, e.2)] ([[]] ++ rest) acc hn
        (fun e' h => hes e' (List.mem_cons_of_mem _ h))]
    simp [parseMapLines]

theorem parseMapLines_serialize (m : IniMap) :
    ∀ (acc : IniMap) (cur : Str), (m.map Prod.fst).Nodup →
      (∀ x ∈ acc.map Prod.fst, x ∉ m.map Prod.fst) →
      (∀ p ∈ m, ∀ e ∈ p.2, cleanEntry e) →
      parseMapLines (serializeMapLines m) cur acc
        = acc ++ m.filter (fun p => !p.2.isEmpty) := by
  induction m with
  | nil => intro acc cur _ _ _; simp [serializeMapLines, parseMapLines]
  | cons p m ih =>
    rcases p with ⟨n, es⟩
    intro acc cur hnd hdisj hcl
    simp only [List.map_cons, List.nodup_cons] at hnd
    have hn : n ∉ acc.map Prod.fst := by
      intro hx
      exact hdisj n hx (List.mem_cons_self _ _)
    have hser : serializeMapLines ((n, es) :: m)
        = sectionLines n es ++ serializeMapLines m := by
      simp [serializeMapLines]
    rw [hser, parseMapLines_section n es _ acc cur hn
      (fun e he => hcl (n, es) (List.mem_cons_self _ _) e he)]
    have hdisj' : ∀ x ∈ (if es.isEmpty then acc else acc ++ [(n, es)]).map Prod.fst,
        x ∉ m.map Prod.fst := by
      by_cases hemp : es.isEmpty
      · rw [if_pos hemp]
        intro x hx
        exact fun hm => hdisj x hx (List.mem_cons_of_mem _ hm)
      · rw [if_neg hemp]
        intro x hx
        simp only [List.map_append, List.mem_append, List.map_cons, List.map_nil,
          List.mem_cons, List.not_mem_nil, or_false] at hx
        rcases hx with hx | hx
        · exact fun hm => hdisj x hx (List.mem_cons_of_mem _ hm)
        · subst hx
          exact hnd.1
    rw [ih _ n hnd.2 hdisj' (fun p hp e he => hcl p (List.mem_cons_of_mem _ hp) e he)]
    by_cases hemp : es.isEmpty
    · have : ((n, es) :: m).filter (fun p => !p.2.isEmpty)
          = m.filter (fun p => !p.2.isEmpty) := by
        simp [List.filter_cons, hemp]
      rw [if_pos hemp, this]
    · have : ((n, es) :: m).filter (fun p => !p.2.isEmpty)
          = (n, es) :: m.filter (fun p => !p.2.isEmpty) := by
        simp only [List.filter_cons]
        rw [if_pos (by simpa using hemp)]
      rw [if_neg hemp, this, List.append_assoc]
      rfl

theorem parseMap_serialize (m : IniMap) (hm : mapClean m) :
    parseMapC (serializeMapC m) = m.filter (fun p => !p.2.isEmpty) := by
  rw [parseMapC, serializeMapC,
    getLines_unlines _ (serializeMapLines_nl_free m hm.2), parseMap,
    parseMapLines_serialize m [] [] hm.1 (by simp) (fun p hp => (hm.2 p hp).2)]
  simp

/-! ### `mapLookup` and `mapAssign` -/

theorem mapLookup_mem {m : IniMap} {n : Str} {es : Entries}
    (h : mapLookup m n = some es) : (n, es) ∈ m := by
  induction m with
  | nil => simp [mapLookup] at h
  | cons p m ih =>
    rcases p with ⟨n', es'⟩
    by_cases hne : n' = n
    · subst hne
      rw [show mapLookup ((n', es') :: m) n' = some es' by simp [mapLookup]] at h
      have hes : es' = es := Option.some.inj h
      subst hes
      exact List.mem_cons_self _ _
    · rw [show mapLookup ((n', es') :: m) n = mapLookup m n by simp [mapLookup, hne]] at h
      exact List.mem_cons_of_mem _ (ih h)

theorem mapLookup_filter_of_mem (m : IniMap) (n : Str) (es : Entries)
    (hnd : (m.map Prod.fst).Nodup) (hmem : (n, es) ∈ m) (hne : es ≠ []) :
    mapLookup (m.filter (fun p => !p.2.isEmpty)) n = some es := by
  induction m with
  | nil => simp at hmem
  | cons p m ih =>
    rcases p with ⟨n', es'⟩
    simp only [List.map_cons, List.nodup_cons] at hnd
    rcases List.mem_cons.1 hmem with heq | hmem'
    · rcases Prod.mk.injEq .. ▸ heq with ⟨rfl, rfl⟩
      have hkeep : ((n, es) :: m).filter (fun p => !p.2.isEmpty)
          = (n, es) :: m.filter (fun p => !p.2.isEmpty) := by
        simp only [List.filter_cons]
        rw [if_pos (by simpa [List.isEmpty_iff] using hne)]
      rw [hkeep]
      simp [mapLookup]
    · have hxne : n' ≠ n := by
        intro hx
        subst hx
        exact hnd.1 (List.mem_map.2 ⟨(n', es), hmem', rfl⟩)
      by_cases hemp : es'.isEmpty
      · have hdrop : ((n', es') :: m).filter (fun p => !p.2.isEmpty)
            = m.filter (fun p => !p.2.isEmpty) := by
          simp [List.filter_cons, hemp]
        rw [hdrop]
        exact ih hnd.2 hmem'
      · have hkeep : ((n', es') :: m).filter (fun p => !p.2.isEmpty)
            = (n', es') :: m.filter (fun p => !p.2.isEmpty) := by
          simp only [List.filter_cons]
          rw [if_pos (by simpa using hemp)]
        rw [hkeep, show mapLookup ((n', es') :: m.filter (fun p => !p.2.isEmpty)) n
            = mapLookup (m.filter (fun p => !p.2.isEmpty)) n by simp [mapLookup, hxne]]
        exact ih hnd.2 hmem'

theorem mapAssign_mem (m : IniMap) (n : Str) (es : Entries) :
    (n, es) ∈ mapAssign m n es := by
  induction m with
  | nil => simp [mapAssign]
  | cons p m ih =>
    rcases p with ⟨n', es'⟩
    by_cases hne : n' = n
    · subst hne
      rw [show mapAssign ((n', es') :: m) n' es = (n', es) :: m by simp [mapAssign]]
      exact List.mem_cons_self _ _
    · rw [show mapAssign ((n', es') :: m) n es = (n', es') :: mapAssign m n es by
        simp [mapAssign, hne]]
      exact List.mem_cons_of_mem _ ih

theorem mapAssign_mem_of_mem (m : IniMap) (n : Str) (es : Entries) (p : Str × Entries)
    (hp : p ∈ mapAssign m n es) : p ∈ m ∨ p = (n, es) := by
  induction m with
  | nil =>
    simp only [mapAssign, List.mem_singleton] at hp
    exact Or.inr hp
  | cons q m ih =>
    rcases q with ⟨n', es'⟩
    by_cases hne : n' = n
    · subst hne
      rw [show mapAssign ((n', es') :: m) n' es = (n', es) :: m by simp [mapAssign]] at hp
      rcases List.mem_cons.1 hp with rfl | hp
      · exact Or.inr rfl
      · exact Or.inl (List.mem_cons_of_mem _ hp)
    · rw [show mapAssign ((n', es') :: m) n es = (n', es') :: mapAssign m n es by
        simp [mapAssign, hne]] at hp
      rcases List.mem_cons.1 hp with rfl | hp
      · exact Or.inl (List.mem_cons_self _ _)
      · rcases ih hp with h | h
        · exact Or.inl (List.mem_cons_of_mem _ h)
        · exact Or.inr h

theorem mapAssign_names (m : IniMap) (n : Str) (es : Entries) :
    (mapAssign m n es).map Prod.fst
      = if n ∈ m.map Prod.fst then m.map Prod.fst else m.map Prod.fst ++ [n] := by
  induction m with
  | nil => simp [mapAssign]
  | cons p m ih =>
    rcases p with ⟨n', es'⟩
    by_cases hne : n' = n
    · subst hne
      rw [show mapAssign ((n', es') :: m) n' es = (n', es) :: m by simp [mapAssign]]
      simp
    · rw [show mapAssign ((n', es') :: m) n es = (n', es') :: mapAssign m n es by
        simp [mapAssign, hne]]
      by_cases hmem : n ∈ m.map Prod.fst
      · have : n ∈ ((n', es') :: m).map Prod.fst := by
          simp [List.mem_cons, hmem]
        rw [if_pos this]
        simp only [List.map_cons]
        rw [ih, if_pos hmem]
      · have : n ∉ ((n', es') :: m).map Prod.fst := by
          simp only [List.map_cons, List.mem_cons]
          push_neg
          exact ⟨fun h => hne h.symm, hmem⟩
        rw [if_neg this]
        simp only [List.map_cons]
        rw [ih, if_neg hmem]
        simp

theorem mapAssign_nodup (m : IniMap) (n : Str) (es : Entries)
    (h : (m.map Prod.fst).Nodup) : ((mapAssign m n es).map Prod.fst).Nodup := by
  rw [mapAssign_names]
  by_cases hmem : n ∈ m.map Prod.fst
  · rwa [if_pos hmem]
  · rw [if_neg hmem]
    exact (List.perm_append_singleton n _).symm.nodup (List.nodup_cons.2 ⟨hmem, h⟩)

theorem mapAssign_clean (m : IniMap) (n : Str) (es : Entries)
    (hm : ∀ p ∈ m, '\n' ∉ p.1 ∧ ∀ e ∈ p.2, cleanEntry e)
    (hn : '\n' ∉ n) (hes : ∀ e ∈ es, cleanEntry e) :
    ∀ p ∈ mapAssign m n es, '\n' ∉ p.1 ∧ ∀ e ∈ p.2, cleanEntry e := by
  intro p hp
  rcases mapAssign_mem_of_mem m n es p hp with h | rfl
  · exact hm p h
  · exact ⟨hn, hes⟩

/-! ### `updateEntries`, `updateSections`, `replaceOrAppend` -/

theorem updateEntries_ne_nil (es : Entries) (k v : Str) : updateEntries es k v ≠ [] := by
  cases es with
  | nil => simp [updateEntries]
  | cons e es =>
    by_cases h : e.1 = k
    · simp [updateEntries, h]
    · simp [updateEntries, h]

theorem updateEntries_mem (es : Entries) (k v : Str) (p : Entry)
    (hp : p ∈ updateEntries es k v) : p ∈ es ∨ p = (k, v) := by
  induction es with
  | nil =>
    simp only [updateEntries, List.mem_singleton] at hp
    exact Or.inr hp
  | cons e es ih =>
    by_cases h : e.1 = k
    · rw [show updateEntries (e :: es) k v = (k, v) :: es by simp [updateEntries, h]] at hp
      rcases List.mem_cons.1 hp with rfl | hp
      · exact Or.inr rfl
      · exact Or.inl (List.mem_cons_of_mem _ hp)
    · rw [show updateEntries (e :: es) k v = e :: updateEntries es k v by
        simp [updateEntries, h]] at hp
      rcases List.mem_cons.1 hp with rfl | hp
      · exact Or.inl (List.mem_cons_self _ _)
      · rcases ih hp with h1 | h1
        · exact Or.inl (List.mem_cons_of_mem _ h1)
        · exact Or.inr h1

theorem updateEntries_filter (es : Entries) (k v old : Str)
    (h : es.filter (fun e => decide (e.1 = k)) = [(k, old)]) :
    (updateEntries es k v).filter (fun e => decide (e.1 = k)) = [(k, v)] := by
  induction es with
  | nil => simp at h
  | cons e es ih =>
    by_cases he : e.1 = k
    · rw [show (e :: es).filter (fun e => decide (e.1 = k))
          = e :: es.filter (fun e => decide (e.1 = k)) by
        simp only [List.filter_cons]; rw [if_pos (by simpa using he)]] at h
      have he' : e = (k, old) := (List.cons.injEq _ _ _ _ ▸ h).1
      have hrest : es.filter (fun e => decide (e.1 = k)) = [] :=
        (List.cons.injEq _ _ _ _ ▸ h).2
      rw [show updateEntries (e :: es) k v = (k, v) :: es by simp [updateEntries, he]]
      simp only [List.filter_cons]
      rw [if_pos (by simp), hrest]
    · rw [show (e :: es).filter (fun e => decide (e.1 = k))
          = es.filter (fun e => decide (e.1 = k)) by
        simp only [List.filter_cons]; rw [if_neg (by simpa using he)]] at h
      rw [show updateEntries (e :: es) k v = e :: updateEntries es k v by
        simp [updateEntries, he]]
      simp only [List.filter_cons]
      rw [if_neg (by simpa using he)]
      exact ih h

theorem updateEntries_idem (es : Entries) (k v : Str) :
    updateEntries (updateEntries es k v) k v = updateEntries es k v := by
  induction es with
  | nil => simp [updateEntries]
  | cons e es ih =>
    by_cases h : e.1 = k
    · rw [show updateEntries (e :: es) k v = (k, v) :: es by simp [updateEntries, h]]
      simp [updateEntries]
    · rw [show updateEntries (e :: es) k v = e :: updateEntries es k v by
        simp [updateEntries, h]]
      rw [show updateEntries (e :: updateEntries es k v) k v
          = e :: updateEntries (updateEntries es k v) k v by simp [updateEntries, h]]
      rw [ih]

theorem updateSections_idem (ss : List iniSection) (n k v : Str) :
    updateSections (updateSections ss n k v) n k v = updateSections ss n k v := by
  induction ss with
  | nil => simp [updateSections, updateEntries]
  | cons s ss ih =>
    by_cases h : s.name = n
    · rw [show updateSections (s :: ss) n k v
          = ⟨s.name, updateEntries s.entries k v⟩ :: ss by simp [updateSections, h]]
      rw [show updateSections (⟨s.name, updateEntries s.entries k v⟩ :: ss) n k v
          = ⟨s.name, updateEntries (updateEntries s.entries k v) k v⟩ :: ss by
        simp [updateSections, h]]
      rw [updateEntries_idem]
    · rw [show updateSections (s :: ss) n k v = s :: updateSections ss n k v by
        simp [updateSections, h]]
      rw [show updateSections (s :: updateSections ss n k v) n k v
          = s :: updateSections (updateSections ss n k v) n k v by
        simp [updateSections, h]]
      rw [ih]

theorem replaceOrAppend_head (s0 : iniSection) (rest : List iniSection)
    (sec : iniSection) (h : s0.name ≠ sec.name) :
    replaceOrAppend (s0 :: rest) sec = s0 :: replaceOrAppend rest sec := by
  simp [replaceOrAppend, h]

theorem replaceOrAppend_filter (ss : List iniSection) (sec : iniSection) :
    (replaceOrAppend ss sec).filter (fun s => !decide (s.name = sec.name))
      = ss.filter (fun s => !decide (s.name = sec.name)) := by
  induction ss with
  | nil => simp [replaceOrAppend]
  | cons s ss ih =>
    by_cases h : s.name = sec.name
    · rw [show replaceOrAppend (s :: ss) sec = ⟨s.name, sec.entries⟩ :: ss by
        simp [replaceOrAppend, h]]
      simp only [List.filter_cons]
      rw [if_neg (by simp [h]), if_neg (by simp [h])]
    · rw [replaceOrAppend_head s ss sec h]
      simp only [List.filter_cons]
      rw [if_pos (by simp [h]), if_pos (by simp [h]), ih]

theorem replaceOrAppend_name_mem (ss : List iniSection) (sec : iniSection) :
    sec.name ∈ (replaceOrAppend ss sec).map iniSection.name := by
  induction ss with
  | nil => simp [replaceOrAppend]
  | cons s ss ih =>
    by_cases h : s.name = sec.name
    · rw [show replaceOrAppend (s :: ss) sec = ⟨s.name, sec.entries⟩ :: ss by
        simp [replaceOrAppend, h]]
      simp [h]
    · rw [replaceOrAppend_head s ss sec h]
      simp only [List.map_cons, List.mem_cons]
      exact Or.inr ih

theorem updateSections_head (s0 : iniSection) (rest : List iniSection) (n k v : Str)
    (h : s0.name ≠ n) :
    updateSections (s0 :: rest) n k v = s0 :: updateSections rest n k v := by
  simp [updateSections, h]

theorem updateSections_filter (ss : List iniSection) (n k v : Str) :
    (updateSections ss n k v).filter (fun s => !decide (s.name = n))
      = ss.filter (fun s => !decide (s.name = n)) := by
  induction ss with
  | nil => simp [updateSections]
  | cons s ss ih =>
    by_cases h : s.name = n
    · rw [show updateSections (s :: ss) n k v
          = ⟨s.name, updateEntries s.entries k v⟩ :: ss by simp [updateSections, h]]
      simp only [List.filter_cons]
      rw [if_neg (by simp [h]), if_neg (by simp [h])]
    · rw [updateSections_head s ss n k v h]
      simp only [List.filter_cons]
      rw [if_pos (by simp [h]), if_pos (by simp [h]), ih]

theorem updateSections_name_mem (ss : List iniSection) (n k v : Str) :
    n ∈ (updateSections ss n k v).map iniSection.name := by
  induction ss with
  | nil => simp [updateSections]
  | cons s ss ih =>
    by_cases h : s.name = n
    · rw [show updateSections (s :: ss) n k v
          = ⟨s.name, updateEntries s.entries k v⟩ :: ss by simp [updateSections, h]]
      simp [h]
    · rw [updateSections_head s ss n k v h]
      simp only [List.map_cons, List.mem_cons]
      exact Or.inr ih

theorem replaceOrAppend_clean (ss : List iniSection) (sec : iniSection)
    (hss : ∀ s ∈ ss, cleanSection s) (hsec : cleanSection sec) :
    ∀ s ∈ replaceOrAppend ss sec, cleanSection s := by
  induction ss with
  | nil =>
    intro s hs
    rcases List.mem_singleton.1 hs with rfl
    exact hsec
  | cons s0 ss ih =>
    intro s hs
    have h0 := hss s0 (List.mem_cons_self _ _)
    have hss' : ∀ t ∈ ss, cleanSection t := fun t ht => hss t (List.mem_cons_of_mem _ ht)
    by_cases h : s0.name = sec.name
    · rw [show replaceOrAppend (s0 :: ss) sec = ⟨s0.name, sec.entries⟩ :: ss by
        simp [replaceOrAppend, h]] at hs
      rcases List.mem_cons.1 hs with rfl | hs
      · exact ⟨h0.1, hsec.2⟩
      · exact hss' s hs
    · rw [replaceOrAppend_head s0 ss sec h] at hs
      rcases List.mem_cons.1 hs with rfl | hs
      · exact h0
      · exact ih hss' s hs

theorem updateSections_clean (ss : List iniSection) (n k v : Str)
    (hss : ∀ s ∈ ss, cleanSection s) (hn : '\n' ∉ n) (hkv : cleanEntry (k, v)) :
    ∀ s ∈ updateSections ss n k v, cleanSection s := by
  induction ss with
  | nil =>
    intro s hs
    rcases List.mem_singleton.1 hs with rfl
    refine ⟨hn, ?_⟩
    intro e he
    rcases List.mem_singleton.1 he with rfl
    exact hkv
  | cons s0 ss ih =>
    intro s hs
    have h0 := hss s0 (List.mem_cons_self _ _)
    have hss' : ∀ t ∈ ss, cleanSection t := fun t ht => hss t (List.mem_cons_of_mem _ ht)
    by_cases h : s0.name = n
    · rw [show updateSections (s0 :: ss) n k v
          = ⟨s0.name, updateEntries s0.entries k v⟩ :: ss by simp [updateSections, h]] at hs
      rcases List.mem_cons.1 hs with rfl | hs
      · refine ⟨h0.1, ?_⟩
        intro e he
        rcases updateEntries_mem s0.entries k v e he with h1 | rfl
        · exact h0.2 e h1
        · exact hkv
      · exact hss' s hs
    · rw [updateSections_head s0 ss n k v h] at hs
      rcases List.mem_cons.1 hs with rfl | hs
      · exact h0
      · exact ih hss' s hs

/-! ### Read-path characterizations and permutation transport -/

theorem lookupVal_eq_find (es : Entries) (k : Str) :
    lookupVal es k
      = (match es.find? (fun e => decide (e.1 = k)) with
        | none => []
        | some e => e.2) := by
  induction es with
  | nil => simp [lookupVal]
  | cons e es ih =>
    rcases e with ⟨k', v⟩
    by_cases h : k' = k
    · rw [show lookupVal ((k', v) :: es) k = v by simp [lookupVal, h],
        List.find?_cons_of_pos _ (by simpa using h)]
    · rw [show lookupVal ((k', v) :: es) k = lookupVal es k by simp [lookupVal, h],
        List.find?_cons_of_neg _ (by simpa using h), ih]

theorem ordReadEntryS_eq_find (ss : List iniSection) (n k : Str) :
    ordReadEntryS ss n k
      = (match ss.find? (fun s => decide (s.name = n)) with
        | none => []
        | some s =>
          match s.entries.find? (fun e => decide (e.1 = k)) with
          | none => []
          | some e => e.2) := by
  induction ss with
  | nil => simp [ordReadEntryS]
  | cons s ss ih =>
    by_cases h : s.name = n
    · rw [show ordReadEntryS (s :: ss) n k = lookupVal s.entries k by
        simp [ordReadEntryS, h],
        List.find?_cons_of_pos _ (by simpa using h), lookupVal_eq_find]
    · rw [show ordReadEntryS (s :: ss) n k = ordReadEntryS ss n k by
        simp [ordReadEntryS, h],
        List.find?_cons_of_neg _ (by simpa using h), ih]

theorem parseOrdLinesRev_names (ls : List Str) :
    ∀ acc : List iniSection,
      (parseOrdLinesRev ls acc).map iniSection.name
        = ((ls.filter (fun l => !l.isEmpty && isHeader l)).map sectionName).reverse
            ++ acc.map iniSection.name := by
  induction ls with
  | nil => intro acc; simp [parseOrdLinesRev]
  | cons l ls ih =>
    intro acc
    by_cases he : l = []
    · subst he
      rw [show parseOrdLinesRev ([] :: ls) acc = parseOrdLinesRev ls acc by
        simp [parseOrdLinesRev]]
      rw [show ([] :: ls).filter (fun l => !l.isEmpty && isHeader l)
          = ls.filter (fun l => !l.isEmpty && isHeader l) by
        simp [List.filter_cons]]
      exact ih acc
    · have hne : (!l.isEmpty) = true := by
        simp [List.isEmpty_iff, he]
      by_cases hh : isHeader l = true
      · rw [show parseOrdLinesRev (l :: ls) acc
            = parseOrdLinesRev ls (⟨sectionName l, []⟩ :: acc) by
          simp [parseOrdLinesRev, he, hh]]
        rw [show (l :: ls).filter (fun l => !l.isEmpty && isHeader l)
            = l :: ls.filter (fun l => !l.isEmpty && isHeader l) by
          simp only [List.filter_cons]; rw [if_pos (by simp [hne, hh])]]
        rw [ih (⟨sectionName l, []⟩ :: acc)]
        simp [List.append_assoc]
      · rw [Bool.not_eq_true] at hh
        have hfl : (l :: ls).filter (fun l => !l.isEmpty && isHeader l)
            = ls.filter (fun l => !l.isEmpty && isHeader l) := by
          simp only [List.filter_cons]
          rw [if_neg (by simp [hh])]
        cases hsp : splitFirstEq l with
        | none =>
          rw [show parseOrdLinesRev (l :: ls) acc = parseOrdLinesRev ls acc by
            simp [parseOrdLinesRev, he, hh, hsp], hfl]
          exact ih acc
        | some kv =>
          rcases kv with ⟨k, v⟩
          cases acc with
          | nil =>
            rw [show parseOrdLinesRev (l :: ls) [] = parseOrdLinesRev ls [] by
              simp [parseOrdLinesRev, he, hh, hsp], hfl]
            exact ih []
          | cons s0 rest =>
            rw [show parseOrdLinesRev (l :: ls) (s0 :: rest)
                = parseOrdLinesRev ls (⟨s0.name, s0.entries ++ [(k, v)]⟩ :: rest) by
              simp [parseOrdLinesRev, he, hh, hsp], hfl]
            rw [ih (⟨s0.name, s0.entries ++ [(k, v)]⟩ :: rest)]
            simp

theorem parseOrd_names (ls : List Str) :
    (parseOrd ls).map iniSection.name
      = (ls.filter (fun l => !l.isEmpty && isHeader l)).map sectionName := by
  rw [parseOrd, List.map_reverse, parseOrdLinesRev_names ls []]
  simp

theorem mapClean_perm (m m' : IniMap) (h : List.Perm m' m) (hm : mapClean m) :
    mapClean m' :=
  ⟨((h.map Prod.fst).symm).nodup hm.1, fun p hp => hm.2 p (h.mem_iff.1 hp)⟩

/-! ## Claims -/

/-- Helper: a successful map-variant `writeSection` of a nonempty clean entry
list under a clean name can be read back exactly, for every permutation `σ`
the unordered map may serialize in, whether or not the preliminary read
succeeded (`r`). -/
theorem mapWriteSection_roundtrip (σ : IniMap → IniMap) (r : Bool) (f0 : Str)
    (n : Str) (es : Entries) (out : Entries)
    (hσ : List.Perm (σ (mapAssign (if r then parseMapC f0 else []) n es))
      (mapAssign (if r then parseMapC f0 else []) n es))
    (hn : '\n' ∉ n) (hes : ∀ e ∈ es, cleanEntry e) (hne : es ≠ []) :
    (mapWriteSection σ r true f0 n es).1 = true ∧
    mapReadSection true (mapWriteSection σ r true f0 n es).2 n out = (true, es) := by
  have hm0c : mapClean (if r then parseMapC f0 else []) := by
    by_cases hr : r = true
    · rw [if_pos hr]; exact parseMapC_clean f0
    · rw [if_neg hr]; exact ⟨by simp, by simp⟩
  have hMnd := mapAssign_nodup (if r then parseMapC f0 else []) n es hm0c.1
  have hMcl := mapAssign_clean (if r then parseMapC f0 else []) n es hm0c.2 hn hes
  have hMmem := mapAssign_mem (if r then parseMapC f0 else []) n es
  have hσM : mapClean (σ (mapAssign (if r then parseMapC f0 else []) n es)) :=
    mapClean_perm _ _ hσ ⟨hMnd, hMcl⟩
  have hmem' : (n, es) ∈ σ (mapAssign (if r then parseMapC f0 else []) n es) :=
    hσ.mem_iff.2 hMmem
  have hw : (mapWriteSection σ r true f0 n es).2
      = serializeMapC (σ (mapAssign (if r then parseMapC f0 else []) n es)) := by
    simp [mapWriteSection]
  have hparse := parseMap_serialize _ hσM
  have hlk := mapLookup_filter_of_mem _ n es hσM.1 hmem' hne
  refine ⟨by simp [mapWriteSection], ?_⟩
  rw [hw]
  rw [show mapReadSection true
        (serializeMapC (σ (mapAssign (if r then parseMapC f0 else []) n es))) n out
      = (match mapLookup (parseMapC (serializeMapC
          (σ (mapAssign (if r then parseMapC f0 else []) n es)))) n with
        | some es => (true, es)
        | none => (false, [])) from by simp [mapReadSection]]
  rw [hparse, hlk]

/-- C1 (confirmed).  For every handler state (any prior file contents `f0`,
whether or not the preliminary read succeeds, and any iteration order `σ` of
the unordered map), a successful `writeSection("S", [("A","1"),("B","2")])`
followed by `readSection("S")` succeeds and returns exactly that entry list in
the same order. -/
theorem claim_C1 (σ : IniMap → IniMap) (r : Bool) (f0 : Str) (out : Entries)
    (hσ : List.Perm
      (σ (mapAssign (if r then parseMapC f0 else []) "S".toList
        [("A".toList, "1".toList), ("B".toList, "2".toList)]))
      (mapAssign (if r then parseMapC f0 else []) "S".toList
        [("A".toList, "1".toList), ("B".toList, "2".toList)])) :
    (mapWriteSection σ r true f0 "S".toList
      [("A".toList, "1".toList), ("B".toList, "2".toList)]).1 = true ∧
    mapReadSection true
      (mapWriteSection σ r true f0 "S".toList
        [("A".toList, "1".toList), ("B".toList, "2".toList)]).2 "S".toList out
      = (true, [("A".toList, "1".toList), ("B".toList, "2".toList)]) :=
  mapWriteSection_roundtrip σ r f0 "S".toList
    [("A".toList, "1".toList), ("B".toList, "2".toList)] out hσ
    (by decide) (by decide) (by decide)

/-- C1 witness: a concrete run over a file already holding a `[T]` section,
with the identity iteration order. -/
theorem claim_C1_witness :
    List.Perm
      (id (mapAssign (parseMapC "[T]\nt=9\n".toList) "S".toList
        [("A".toList, "1".toList), ("B".toList, "2".toList)]))
      (mapAssign (parseMapC "[T]\nt=9\n".toList) "S".toList
        [("A".toList, "1".toList), ("B".toList, "2".toList)]) ∧
    ((mapWriteSection id true true "[T]\nt=9\n".toList "S".toList
        [("A".toList, "1".toList), ("B".toList, "2".toList)]).1 = true ∧
     mapReadSection true
       (mapWriteSection id true true "[T]\nt=9\n".toList "S".toList
         [("A".toList, "1".toList), ("B".toList, "2".toList)]).2 "S".toList
       [("x".toList, "y".toList)]
       = (true, [("A".toList, "1".toList), ("B".toList, "2".toList)])) :=
  ⟨by decide,
   claim_C1 id true "[T]\nt=9\n".toList [("x".toList, "y".toList)] (by decide)⟩

/-- C5 (confirmed).  For every file whose parsed section `S` holds exactly one
entry with key `K` (of some value `old`), a `writeValue("S","K","new")` via
the map variant does not duplicate the key: re-reading `S` afterwards yields
the updated entry list, whose entries named `K` are exactly `[("K","new")]` —
one entry, with the new value — for every iteration order `σ`. -/
theorem claim_C5 (σ : IniMap → IniMap) (f0 : Str) (es : Entries) (old : Str)
    (out : Entries)
    (hlk : mapLookup (parseMapC f0) "S".toList = some es)
    (hone : es.filter (fun e => decide (e.1 = "K".toList)) = [("K".toList, old)])
    (hσ : List.Perm
      (σ (mapAssign (parseMapC f0) "S".toList
        (updateEntries es "K".toList "new".toList)))
      (mapAssign (parseMapC f0) "S".toList
        (updateEntries es "K".toList "new".toList))) :
    mapReadSection true (mapWriteValueC σ f0 "S".toList "K".toList "new".toList)
      "S".toList out
      = (true, updateEntries es "K".toList "new".toList) ∧
    (updateEntries es "K".toList "new".toList).filter
      (fun e => decide (e.1 = "K".toList)) = [("K".toList, "new".toList)] := by
  have hes_clean : ∀ e ∈ es, cleanEntry e :=
    ((parseMapC_clean f0).2 _ (mapLookup_mem hlk)).2
  have hupd_clean : ∀ e ∈ updateEntries es "K".toList "new".toList, cleanEntry e := by
    intro e he
    rcases updateEntries_mem es _ _ e he with h | rfl
    · exact hes_clean e h
    · decide
  have hne : updateEntries es "K".toList "new".toList ≠ [] :=
    updateEntries_ne_nil es _ _
  have hmain := mapWriteSection_roundtrip σ true f0 "S".toList
    (updateEntries es "K".toList "new".toList) out hσ (by decide) hupd_clean hne
  constructor
  · have hwv : mapWriteValueC σ f0 "S".toList "K".toList "new".toList
        = (mapWriteSection σ true true f0 "S".toList
            (updateEntries es "K".toList "new".toList)).2 := by
      simp only [mapWriteValueC, mapWriteSectionC, hlk]
    rw [hwv]
    exact hmain.2
  · exact updateEntries_filter es _ _ old hone

/-- C5 witness: a file where `S` holds exactly `K=old`, updated to `new` with
the identity iteration order; the re-read shows the single entry `K=new`. -/
theorem claim_C5_witness :
    mapLookup (parseMapC "[S]\nK=old\n".toList) "S".toList
      = some [("K".toList, "old".toList)] ∧
    ([("K".toList, "old".toList)] : Entries).filter
      (fun e => decide (e.1 = "K".toList)) = [("K".toList, "old".toList)] ∧
    List.Perm
      (id (mapAssign (parseMapC "[S]\nK=old\n".toList) "S".toList
        (updateEntries [("K".toList, "old".toList)] "K".toList "new".toList)))
      (mapAssign (parseMapC "[S]\nK=old\n".toList) "S".toList
        (updateEntries [("K".toList, "old".toList)] "K".toList "new".toList)) ∧
    (mapReadSection true
       (mapWriteValueC id "[S]\nK=old\n".toList "S".toList "K".toList "new".toList)
       "S".toList []
       = (true, updateEntries [("K".toList, "old".toList)] "K".toList "new".toList) ∧
     (updateEntries [("K".toList, "old".toList)] "K".toList "new".toList).filter
       (fun e => decide (e.1 = "K".toList)) = [("K".toList, "new".toList)]) :=
  ⟨by decide, by decide, by decide,
   claim_C5 id "[S]\nK=old\n".toList [("K".toList, "old".toList)] "old".toList []
     (by decide) (by decide) (by decide)⟩

/-- C3 (amended).  The unordered-map `writeSection` (iniHandler.h) returns
failure exactly when the file cannot be opened for writing — the result of the
preliminary `readAll` is ignored, so an unreadable or unparsable file does not
make it return `false`.  The `iniSection`-based `writeSection` (part_001)
additionally returns `false` whenever the preliminary read fails, even when
the file could be opened for writing (second conjunct, with `r = false`,
`w = true`). -/
theorem claim_C3_amended (σ : IniMap → IniMap) (r w : Bool) (f : Str) (n : Str)
    (es : Entries) (g : Str) (sec : iniSection) :
    (mapWriteSection σ r w f n es).1 = w ∧
    ordWriteSection false true g sec = (false, g) := by
  constructor
  · by_cases hw : w = true
    · subst hw; simp [mapWriteSection]
    · rw [Bool.not_eq_true] at hw; subst hw; simp [mapWriteSection]
  · simp [ordWriteSection]

/-- C3 counterexample.  `part_001`'s `writeSection` on a file that cannot be
opened for reading (`r = false`) but can be opened for writing (`w = true`)
returns `false`, contradicting "returns failure only when the file cannot be
opened for writing". -/
theorem claim_C3_counterexample :
    ordWriteSection false true "[A]\na=1\n".toList
      ⟨"B".toList, [("b".toList, "2".toList)]⟩ = (false, "[A]\na=1\n".toList) := by
  decide

/-- C6 (amended).  The `iniSection`-based parser (part_001 `readAll`) keeps
same-named section headers as separate sections, one per header line, in file
order (first conjunct: the parsed section names are exactly the header lines'
names in order), and search operations use the first match (the duplicate
file's first `S` section answers reads; the key of the second `S` section is
invisible). -/
theorem claim_C6_amended (ls : List Str) :
    (parseOrd ls).map iniSection.name
      = (ls.filter (fun l => !l.isEmpty && isHeader l)).map sectionName ∧
    parseOrdC "[S]\na=1\n[S]\nb=2\n".toList
      = [⟨"S".toList, [("a".toList, "1".toList)]⟩,
         ⟨"S".toList, [("b".toList, "2".toList)]⟩] ∧
    ordReadEntryC "[S]\na=1\n[S]\nb=2\n".toList "S".toList "a".toList = "1".toList ∧
    ordReadEntryC "[S]\na=1\n[S]\nb=2\n".toList "S".toList "b".toList = [] :=
  ⟨parseOrd_names ls, by decide, by decide, by decide⟩

/-- C6 counterexample.  The unordered-map parser (iniHandler.h `readAll`) does
*not* keep duplicate sections separate: on a file with two `[S]` headers it
merges their entries into a single map entry for `"S"`. -/
theorem claim_C6_counterexample :
    parseMapC "[S]\na=1\n[S]\nb=2\n".toList
      = [("S".toList, [("a".toList, "1".toList), ("b".toList, "2".toList)])] := by
  decide

/-- C7 (amended).  `part_001`'s `readEntry` behaves exactly as the claim
states: it returns the empty string when no section has the given name, and
otherwise consults only the *first* section with that name — returning the
empty string when that section has no entry with the given key, and the value
of the first such entry otherwise. -/
theorem claim_C7_amended (f : Str) (n k : Str) :
    ordReadEntryC f n k
      = (match (parseOrdC f).find? (fun s => decide (s.name = n)) with
        | none => []
        | some s =>
          match s.entries.find? (fun e => decide (e.1 = k)) with
          | none => []
          | some e => e.2) :=
  ordReadEntryS_eq_find (parseOrdC f) n k

/-- C7 counterexample.  The unordered-map `readValue` (iniHandler.h) does not
restrict itself to the first section with the given name: its parser merges
same-named sections, so on `[S] A=x [S] K=2` it returns `"2"` for key `K`,
although the first `S` section has no entry `K` (the claim requires the empty
string there, and `part_001`'s `readEntry` indeed returns it). -/
theorem claim_C7_counterexample :
    mapReadValueC "[S]\nA=x\n[S]\nK=2\n".toList "S".toList "K".toList = "2".toList ∧
    ordReadEntryC "[S]\nA=x\n[S]\nK=2\n".toList "S".toList "K".toList = [] :=
  ⟨by decide, by decide⟩

/-- C9 (confirmed).  In both parsers, a line whose first character is `'['`
and whose last character is `']'` is classified as a section header — the name
being everything between the brackets — before and regardless of any `'='` it
contains: the header branch fires unconditionally (no `'='`-freeness
hypothesis appears below), so the key/value split at the first `'='` is never
consulted for such a line. -/
theorem claim_C9 (l : Str) (ls : List Str) (acc : List iniSection) (cur : Str)
    (m : IniMap) (h1 : l.head? = some '[') (h2 : l.getLast? = some ']') :
    isHeader l = true ∧
    sectionName l = (l.drop 1).dropLast ∧
    parseOrdLinesRev (l :: ls) acc = parseOrdLinesRev ls (⟨sectionName l, []⟩ :: acc) ∧
    parseMapLines (l :: ls) cur m = parseMapLines ls (sectionName l) m := by
  have hne : l ≠ [] := by intro h; subst h; simp at h1
  have hh : isHeader l = true := by simp [isHeader, h1, h2]
  exact ⟨hh, rfl, by simp [parseOrdLinesRev, hne, hh], by simp [parseMapLines, hne, hh]⟩

/-- C9 witness: the line `[a=b]` contains `'='` yet both parsers open a section
named `a=b` (and do not treat it as the key/value pair `[a` / `b]`). -/
theorem claim_C9_witness :
    "[a=b]".toList.head? = some '[' ∧
    "[a=b]".toList.getLast? = some ']' ∧
    (isHeader "[a=b]".toList = true ∧
     sectionName "[a=b]".toList = ("[a=b]".toList.drop 1).dropLast ∧
     parseOrdLinesRev ["[a=b]".toList, "x=y".toList] []
       = parseOrdLinesRev ["x=y".toList] [⟨sectionName "[a=b]".toList, []⟩] ∧
     parseMapLines ["[a=b]".toList, "x=y".toList] [] []
       = parseMapLines ["x=y".toList] (sectionName "[a=b]".toList) []) :=
  ⟨by decide, by decide, claim_C9 _ _ _ _ _ (by decide) (by decide)⟩

/-- C10 (confirmed).  Map-variant `readSection`: when the file cannot be
opened for reading it returns `false` with the caller's vector untouched
(first conjunct); when the file is readable but no section with the given name
was parsed it returns `false` with the vector cleared to empty (second
conjunct), regardless of what the caller passed in. -/
theorem claim_C10 (f : Str) (n : Str) (out : Entries) :
    mapReadSection false f n out = (false, out) ∧
    (mapLookup (parseMapC f) n = none → mapReadSection true f n out = (false, [])) := by
  constructor
  · simp [mapReadSection]
  · intro h
    simp [mapReadSection, h]

/-- C10 witness: a readable file with sections `S` only, queried for `T`,
starting from a non-empty caller vector. -/
theorem claim_C10_witness :
    mapLookup (parseMapC "[S]\nx=1\n".toList) "T".toList = none ∧
    mapReadSection false "[S]\nx=1\n".toList "T".toList [("a".toList, "b".toList)]
      = (false, [("a".toList, "b".toList)]) ∧
    mapReadSection true "[S]\nx=1\n".toList "T".toList [("a".toList, "b".toList)]
      = (false, []) :=
  ⟨by decide, (claim_C10 _ _ _).1, (claim_C10 _ _ _).2 (by decide)⟩

/-- C2 (amended).  In the `iniSection`-based implementation (part_001), for
every file whose first parsed section `s0` is not the one being written,
writing a section `sec` via `writeSection`, or a value into section `sec.name`
via `writeEntry`, (i) rewrites the file to exactly the structurally-updated
section list (first/fifth conjuncts), (ii) keeps `s0` — name and entries —
first (so an existing first section `A` stays before the written `B`, which is
present by the third conjunct), and (iii) leaves every section not named
`sec.name` unchanged, with its entries and relative order intact (the filter
conjuncts). -/
theorem claim_C2_amended (f0 : Str) (sec : iniSection) (s0 : iniSection) (k v : Str)
    (hsec : cleanSection sec) (hkv : cleanEntry (k, v))
    (h0 : (parseOrdC f0).head? = some s0) (hne : s0.name ≠ sec.name) :
    parseOrdC (ordWriteSectionC f0 sec) = replaceOrAppend (parseOrdC f0) sec ∧
    (parseOrdC (ordWriteSectionC f0 sec)).head? = some s0 ∧
    sec.name ∈ (parseOrdC (ordWriteSectionC f0 sec)).map iniSection.name ∧
    (parseOrdC (ordWriteSectionC f0 sec)).filter (fun s => !decide (s.name = sec.name))
      = (parseOrdC f0).filter (fun s => !decide (s.name = sec.name)) ∧
    parseOrdC (ordWriteEntryC f0 sec.name k v)
      = updateSections (parseOrdC f0) sec.name k v ∧
    (parseOrdC (ordWriteEntryC f0 sec.name k v)).head? = some s0 ∧
    (parseOrdC (ordWriteEntryC f0 sec.name k v)).filter
        (fun s => !decide (s.name = sec.name))
      = (parseOrdC f0).filter (fun s => !decide (s.name = sec.name)) := by
  have hcl := parseOrdC_clean f0
  have hra : parseOrdC (ordWriteSectionC f0 sec)
      = replaceOrAppend (parseOrdC f0) sec := by
    rw [ordWriteSectionC, parseOrd_serialize _ (replaceOrAppend_clean _ _ hcl hsec)]
  have hus : parseOrdC (ordWriteEntryC f0 sec.name k v)
      = updateSections (parseOrdC f0) sec.name k v := by
    rw [ordWriteEntryC,
      parseOrd_serialize _ (updateSections_clean _ _ _ _ hcl hsec.1 hkv)]
  obtain ⟨rest, hrest⟩ : ∃ rest, parseOrdC f0 = s0 :: rest := by
    cases hps : parseOrdC f0 with
    | nil => rw [hps] at h0; simp at h0
    | cons a t =>
      rw [hps] at h0
      simp only [List.head?_cons, Option.some.injEq] at h0
      exact ⟨t, by rw [h0]⟩
  refine ⟨hra, ?_, ?_, ?_, hus, ?_, ?_⟩
  · rw [hra, hrest, replaceOrAppend_head s0 rest sec hne]; rfl
  · rw [hra]; exact replaceOrAppend_name_mem _ sec
  · rw [hra]; exact replaceOrAppend_filter _ sec
  · rw [hus, hrest, updateSections_head s0 rest sec.name k v hne]; rfl
  · rw [hus]; exact updateSections_filter _ _ k v

/-- C2 witness: writing section `B` (and key `k`) into a file whose first
section is `A`. -/
theorem claim_C2_witness :
    cleanSection ⟨"B".toList, [("b".toList, "2".toList)]⟩ ∧
    cleanEntry ("k".toList, "w".toList) ∧
    (parseOrdC "[A]\na=1\n\n".toList).head? = some ⟨"A".toList, [("a".toList, "1".toList)]⟩ ∧
    (⟨"A".toList, [("a".toList, "1".toList)]⟩ : iniSection).name
      ≠ (⟨"B".toList, [("b".toList, "2".toList)]⟩ : iniSection).name ∧
    ((parseOrdC (ordWriteSectionC "[A]\na=1\n\n".toList
        ⟨"B".toList, [("b".toList, "2".toList)]⟩)).head?
      = some ⟨"A".toList, [("a".toList, "1".toList)]⟩) ∧
    ("B".toList ∈ (parseOrdC (ordWriteSectionC "[A]\na=1\n\n".toList
        ⟨"B".toList, [("b".toList, "2".toList)]⟩)).map iniSection.name) :=
  ⟨by decide, by decide, by decide, by decide,
   (claim_C2_amended "[A]\na=1\n\n".toList ⟨"B".toList, [("b".toList, "2".toList)]⟩
     ⟨"A".toList, [("a".toList, "1".toList)]⟩ "k".toList "w".toList
     (by decide) (by decide) (by decide) (by decide)).2.1,
   (claim_C2_amended "[A]\na=1\n\n".toList ⟨"B".toList, [("b".toList, "2".toList)]⟩
     ⟨"A".toList, [("a".toList, "1".toList)]⟩ "k".toList "w".toList
     (by decide) (by decide) (by decide) (by decide)).2.2.1⟩

/-- C2 counterexample.  The unordered-map `writeSection` (iniHandler.h)
serializes sections in the map's iteration order, which C++ leaves
unspecified.  Under the conforming order that happens to reverse the
association list (a permutation, second conjunct), writing `B` into a file
whose persisted form has `A` first produces a file with `B`'s block *before*
`A`'s — so "A stays before B" does not hold for the map-based
implementation. -/
theorem claim_C2_counterexample :
    mapWriteSectionC List.reverse "[A]\na=1\n\n".toList "B".toList
      [("b".toList, "2".toList)] = "[B]\nb=2\n\n[A]\na=1\n\n".toList ∧
    List.Perm
      (List.reverse (mapAssign (parseMapC "[A]\na=1\n\n".toList) "B".toList
        [("b".toList, "2".toList)]))
      (mapAssign (parseMapC "[A]\na=1\n\n".toList) "B".toList
        [("b".toList, "2".toList)]) :=
  ⟨by decide, by decide⟩

/-- C4 (amended).  In the `iniSection`-based parser (part_001), a key=value
line occurring before any section header is silently discarded: parsing is as
if the line were absent, and neither `readEntry` nor `readSection` can observe
it (first four conjuncts).  In the map-based parser (iniHandler.h) the same
line is *not* discarded: it is filed under the initial current-section name
`""` (last conjunct). -/
theorem claim_C4_amended (f : Str) (l : Str) (ls : List Str) (k v n key : Str)
    (hf : getLines f = l :: ls) (hsp : splitFirstEq l = some (k, v))
    (hh : isHeader l = false) :
    parseOrd (l :: ls) = parseOrd ls ∧
    parseOrdC f = parseOrd ls ∧
    ordReadEntryC f n key = ordReadEntryS (parseOrd ls) n key ∧
    ordReadSectionS (parseOrdC f) n = ordReadSectionS (parseOrd ls) n ∧
    parseMapLines (l :: ls) [] [] = parseMapLines ls [] [([], [(k, v)])] := by
  have hne : l ≠ [] := by
    intro h; subst h; simp [splitFirstEq] at hsp
  have h1 : parseOrd (l :: ls) = parseOrd ls := by
    rw [parseOrd, parseOrd]
    congr 1
    simp [parseOrdLinesRev, hne, hh, hsp]
  have h2 : parseOrdC f = parseOrd ls := by rw [parseOrdC, hf, h1]
  refine ⟨h1, h2, ?_, ?_, ?_⟩
  · rw [ordReadEntryC, h2]
  · rw [h2]
  · simp [parseMapLines, hne, hh, hsp, mapAppend]

/-- C4 witness: the file `a=b\n[S]\nx=1\n` whose first line precedes any
header. -/
theorem claim_C4_witness :
    getLines "a=b\n[S]\nx=1\n".toList = ["a=b".toList, "[S]".toList, "x=1".toList] ∧
    splitFirstEq "a=b".toList = some ("a".toList, "b".toList) ∧
    isHeader "a=b".toList = false ∧
    (parseOrd ["a=b".toList, "[S]".toList, "x=1".toList]
        = parseOrd ["[S]".toList, "x=1".toList] ∧
     parseOrdC "a=b\n[S]\nx=1\n".toList = parseOrd ["[S]".toList, "x=1".toList] ∧
     ordReadEntryC "a=b\n[S]\nx=1\n".toList "S".toList "x".toList
        = ordReadEntryS (parseOrd ["[S]".toList, "x=1".toList]) "S".toList "x".toList ∧
     ordReadSectionS (parseOrdC "a=b\n[S]\nx=1\n".toList) "S".toList
        = ordReadSectionS (parseOrd ["[S]".toList, "x=1".toList]) "S".toList ∧
     parseMapLines ["a=b".toList, "[S]".toList, "x=1".toList] [] []
        = parseMapLines ["[S]".toList, "x=1".toList] []
            [([], [("a".toList, "b".toList)])]) :=
  ⟨by decide, by decide, by decide,
   claim_C4_amended "a=b\n[S]\nx=1\n".toList "a=b".toList
     ["[S]".toList, "x=1".toList] "a".toList "b".toList "S".toList "x".toList
     (by decide) (by decide) (by decide)⟩

/-- C4 counterexample.  In the map-based implementation the pre-header line
`a=b` *is* observable: `readValue("", "a")` returns `"b"` and
`readSection("")` succeeds with that entry, contradicting "attached to no
section and not observable through readSection or readValue". -/
theorem claim_C4_counterexample :
    mapReadValueC "a=b\n[S]\nx=1\n".toList [] "a".toList = "b".toList ∧
    mapReadSection true "a=b\n[S]\nx=1\n".toList [] []
      = (true, [("a".toList, "b".toList)]) :=
  ⟨by decide, by decide⟩

/-- C8 (amended).  In the `iniSection`-based implementation (part_001
`writeEntry`), calling `writeValue("S","K","V")` twice in succession is
idempotent: for every prior file state, the bytes written by the second call
are identical to the bytes written by the first. -/
theorem claim_C8_amended (f0 : Str) :
    ordWriteEntryC (ordWriteEntryC f0 "S".toList "K".toList "V".toList)
      "S".toList "K".toList "V".toList
      = ordWriteEntryC f0 "S".toList "K".toList "V".toList := by
  have hclean : ∀ s ∈ updateSections (parseOrdC f0) "S".toList "K".toList "V".toList,
      cleanSection s :=
    updateSections_clean (parseOrdC f0) _ _ _ (parseOrdC_clean f0)
      (by decide) (by decide)
  simp only [ordWriteEntryC]
  rw [parseOrd_serialize _ hclean, updateSections_idem]

/-- C8 counterexample.  The unordered-map `writeValue` (iniHandler.h) writes
sections in the map's unspecified iteration order.  Under the conforming order
that reverses the association list (a permutation, third conjunct), the first
call puts `S` before `A` and the second call puts `A` before `S`: the file
bytes after the second call differ from the bytes after the first, refuting
byte-identical idempotence for the map-based implementation. -/
theorem claim_C8_counterexample :
    mapWriteValueC List.reverse "[A]\na=1\n".toList "S".toList "K".toList "V".toList
      = "[S]\nK=V\n\n[A]\na=1\n\n".toList ∧
    mapWriteValueC List.reverse "[S]\nK=V\n\n[A]\na=1\n\n".toList
      "S".toList "K".toList "V".toList
      = "[A]\na=1\n\n[S]\nK=V\n\n".toList ∧
    List.Perm
      (List.reverse (mapAssign (parseMapC "[A]\na=1\n".toList) "S".toList
        (updateEntries [] "K".toList "V".toList)))
      (mapAssign (parseMapC "[A]\na=1\n".toList) "S".toList
        (updateEntries [] "K".toList "V".toList)) ∧
    ("[A]\na=1\n\n[S]\nK=V\n\n".toList : Str) ≠ "[S]\nK=V\n\n[A]\na=1\n\n".toList :=
  ⟨by decide, by decide, by decide, by decide⟩

end Ini
